import Mathlib

/-!
Verification of the dependency-graph model, traversal primitives and the
field-aware PP-competition algorithm of `extract-pps`
(`src/graph.rs` and `src/bin/extract-ambiguous-pps.rs`).

The Rust code is shallowly embedded: tokens and sentences are plain data,
the petgraph `Graph` is a node list together with an edge list kept in
insertion order, and the lazy Rust iterators (`AdjacentTokens`,
`AncestorTokens`, recursion in `resolve_verb`) are embedded as fueled
unfoldings of their single-step functions: the fueled list is exactly the
first `fuel` elements the Rust iterator yields, and is the whole yield
whenever the iterator stops within `fuel` steps.  petgraph facts used:
`edges_directed` walks a node's adjacency list in reverse insertion order,
and for `Incoming` the produced edge references are reversed, so
`.target()` is the stored source (the neighbour).  Rust `.unwrap()` on a
missing value is a panic, embedded as the `PanicOr.panicked` outcome.
-/

namespace ExtractPps

/-- A CoNLL-X token as used by the program (`conllx::Token`): form, optional
lemma, optional POS tag, optional feature map (name → optional value),
optional 1-based head (0 = root) and head relation, plus the projective
counterparts. -/
structure Token where
  form : String
  lemma_ : Option String
  pos : Option String
  features : Option (List (String × Option String))
  head : Option Nat
  headRel : Option String
  pHead : Option Nat
  pHeadRel : Option String
deriving DecidableEq, Repr

instance : Inhabited Token := ⟨⟨"", none, none, none, none, none, none, none⟩⟩

/-- `DependencyEdge` from `src/graph.rs`: a labelled relation edge or a
precedence edge. -/
inductive DepEdge where
  | relation (label : Option String)
  | precedence
deriving DecidableEq, Repr

def DepEdge.isRelation : DepEdge → Bool
  | .relation _ => true
  | .precedence => false

/-- One stored edge of the petgraph graph: source node index, target node
index, weight. -/
structure Edge where
  src : Nat
  tgt : Nat
  weight : DepEdge
deriving DecidableEq, Repr

/-- The dependency graph: node `i` is the sentence's `i`-th token (its
`DependencyNode.offset` equals `i`), and `edges` is the petgraph edge list
in insertion order. -/
structure DGraph where
  nodes : List Token
  edges : List Edge
deriving Repr

/-- The edges the builder's loop body adds for the token at position `idx`:
a precedence edge from `idx-1` when `idx > 0`, then a relation edge from
`head-1` when the (projective, if selected) head is present and non-zero. -/
def tokenEdges (projective : Bool) (idx : Nat) (token : Token) : List Edge :=
  (if idx > 0 then [⟨idx - 1, idx, .precedence⟩] else []) ++
    (match (if projective then token.pHead else token.head) with
     | some h =>
       if h ≠ 0 then
         [⟨h - 1, idx, .relation (if projective then token.pHeadRel else token.headRel)⟩]
       else []
     | none => [])

/-- The builder's edge-adding loop, unrolled from position `idx` on. -/
def buildEdges (projective : Bool) : Nat → List Token → List Edge
  | _, [] => []
  | idx, t :: rest => tokenEdges projective idx t ++ buildEdges projective (idx + 1) rest

/-- `sentence_to_graph` from `src/graph.rs`. -/
def sentence_to_graph (sentence : List Token) (projective : Bool) : DGraph :=
  ⟨sentence, buildEdges projective 0 sentence⟩

/-- petgraph `EdgeDirection`. -/
inductive EdgeDir where
  | incoming
  | outgoing
deriving DecidableEq, Repr

/-- The `(weight, target)` pairs produced by petgraph's
`edges_directed(a, dir)`, in iteration order: the incident edges in the
given direction, in reverse insertion order, with the edge reference
reversed for `Incoming` so that its target is the neighbour. -/
def edgesDirected (g : DGraph) (a : Nat) (dir : EdgeDir) : List (DepEdge × Nat) :=
  match dir with
  | .outgoing => ((g.edges.filter fun e => e.src == a).reverse).map fun e => (e.weight, e.tgt)
  | .incoming => ((g.edges.filter fun e => e.tgt == a).reverse).map fun e => (e.weight, e.src)

/-- `first_matching_edge` from `src/graph.rs`. -/
def first_matching_edge (g : DGraph) (a : Nat) (dir : EdgeDir) (p : DepEdge → Bool) :
    Option Nat :=
  ((edgesDirected g a dir).find? fun x => p x.1).map (·.2)

/-- `Direction` from `src/graph.rs` (the source's spelling). -/
inductive Direction where
  | preceeding
  | succeeding
deriving DecidableEq, Repr

/-- One step of the `AdjacentTokens` iterator: follow the single precedence
edge in the requested direction. -/
def adjStep (g : DGraph) (dir : Direction) (i : Nat) : Option Nat :=
  first_matching_edge g i
    (match dir with | .preceeding => .incoming | .succeeding => .outgoing)
    (fun e => e == DepEdge.precedence)

/-- The first `fuel` elements yielded by the `AdjacentTokens` iterator
started at `cur`. -/
def adjacentTokensF (g : DGraph) (dir : Direction) : Nat → Nat → List Nat
  | 0, _ => []
  | fuel + 1, cur =>
    match adjStep g dir cur with
    | some j => j :: adjacentTokensF g dir fuel j
    | none => []

/-- `adjacent_tokens`: on graphs built from a sentence the precedence chain
is `0 → 1 → ⋯ → n-1`, so fuel `n` covers the whole iterator. -/
def adjacent_tokens (g : DGraph) (i : Nat) (dir : Direction) : List Nat :=
  adjacentTokensF g dir g.nodes.length i

/-- One step of the `AncestorTokens` iterator: follow the incoming relation
edge (to this node's head). -/
def ancStep (g : DGraph) (i : Nat) : Option Nat :=
  first_matching_edge g i .incoming (fun e => e.isRelation)

/-- The first `fuel` elements yielded by the `AncestorTokens` iterator
started at `cur`.  The Rust iterator itself is unbounded: it stops only
when a root is reached. -/
def ancestorTokensF (g : DGraph) : Nat → Nat → List Nat
  | 0, _ => []
  | fuel + 1, cur =>
    match ancStep g cur with
    | some j => j :: ancestorTokensF g fuel j
    | none => []

/-- `ancestor_tokens`, truncated at sentence length: equal to the Rust
iterator's full yield whenever the relation structure is acyclic (any
head chain then visits distinct nodes, hence has at most `n` elements). -/
def ancestor_tokens (g : DGraph) (i : Nat) : List Nat :=
  ancestorTokensF g g.nodes.length i

/-- The token held by node `i` (`graph[i].token`); all uses below are
in bounds, where `getD` agrees with petgraph's panicking index. -/
def tokenAt (g : DGraph) (i : Nat) : Token :=
  g.nodes.getD i default

/-- `feature_value` from `extract-ambiguous-pps.rs`: look the feature up in
the token's feature map and flatten the optional value. -/
def feature_value (token : Token) (feature : String) : Option String :=
  match token.features with
  | none => none
  | some m =>
    match (m.find? fun kv => kv.1 == feature).map (·.2) with
    | none => none
    | some v => v

def posOf (g : DGraph) (i : Nat) : Option String :=
  (tokenAt g i).pos

/-- `feature_value(token, TOPO_FIELD_FEATURE)` with the feature key "tf". -/
def tfOf (g : DGraph) (i : Nat) : Option String :=
  feature_value (tokenAt g i) "tf"

/-- Does the second character list start with the first?  Used to embed
Rust's `str::starts_with` (Lean's own `String.startsWith` is opaque to
kernel reduction). -/
def beginsWith : List Char → List Char → Bool
  | [], _ => true
  | _ :: _, [] => false
  | p :: ps, c :: cs => p == c && beginsWith ps cs

/-- `s.starts_with(pat)`. -/
def strStarts (s pat : String) : Bool :=
  beginsWith pat.data s.data

/-- `relevant_head_tag`. -/
def relevant_head_tag (tag : String) : Bool :=
  strStarts tag "N" || strStarts tag "V"

/-- `FINITE_VERB_TAGS`. -/
def finiteVerbTags : List String := ["VVFIN", "VAFIN", "VMFIN"]

/-- One step of `resolve_verb`: the first outgoing relation edge labelled
"AUX", in petgraph edge order. -/
def auxStep (g : DGraph) (i : Nat) : Option Nat :=
  first_matching_edge g i .outgoing fun e => e == DepEdge.relation (some "AUX")

/-- `resolve_verb` unfolded with fuel; the Rust function recurses without a
bound, so the fueled result is its value whenever the AUX chain bottoms out
within `fuel` steps. -/
def resolveVerbF (g : DGraph) : Nat → Nat → Nat
  | 0, cur => cur
  | fuel + 1, cur =>
    match auxStep g cur with
    | some j => resolveVerbF g fuel j
    | none => cur

/-- `resolve_verb` with fuel `n + 1`, enough for any acyclic AUX chain. -/
def resolve_verb (g : DGraph) (verb : Nat) : Nat :=
  resolveVerbF g (g.nodes.length + 1) verb

/-- `resolve_verb` reaches `w` from `v`: `w` is the node obtained by
repeatedly following the outgoing AUX relation edge until none exists. -/
inductive AuxReaches (g : DGraph) : Nat → Nat → Prop
  | refl (v : Nat) (h : auxStep g v = none) : AuxReaches g v v
  | step (v j w : Nat) (h : auxStep g v = some j) (hr : AuxReaches g j w) :
      AuxReaches g v w

/-- `CompetingHead`: the candidate's node index (= its offset) and the
gold-head flag. -/
structure CompetingHead where
  node : Nat
  head : Bool
deriving DecidableEq, Repr

/-- Outcome of a Rust computation that may hit an `Option::unwrap` panic. -/
inductive PanicOr (α : Type) where
  | panicked
  | ok (val : α)
deriving DecidableEq, Repr

/-- `traverse_c_to_vc`, iterating over the (fueled) ancestor sequence:
a missing topological field breaks the loop (then `None`), field "VC"
succeeds, any field other than "C" fails. -/
def traverseCtoVcGo (g : DGraph) : List Nat → Option Nat
  | [] => none
  | i :: rest =>
    match tfOf g i with
    | none => none
    | some field =>
      if field == "VC" then some i
      else if field != "C" then none
      else traverseCtoVcGo g rest

def traverse_c_to_vc (g : DGraph) (idx : Nat) : Option Nat :=
  traverseCtoVcGo g (ancestor_tokens g idx)

/-- The loop body of `find_competition_mf`, consuming the sequence of
tokens preceding the PP; `acc` is the candidate vector built so far.
`ok_or_break` on a missing POS or field breaks the loop, after which the
function returns `None`. -/
def findCompetitionMfGo (g : DGraph) (head_idx : Nat) :
    List Nat → List CompetingHead → Option (List CompetingHead)
  | [], _ => none
  | idx :: rest, acc =>
    match posOf g idx with
    | none => none
    | some pos =>
      match tfOf g idx with
      | none => none
      | some tf =>
        if finiteVerbTags.contains pos then
          let verb_idx := resolve_verb g idx
          some (acc ++ [⟨verb_idx, verb_idx == head_idx⟩])
        else if tf == "C" then
          match traverse_c_to_vc g idx with
          | some finite_idx =>
            let verb_idx := resolve_verb g finite_idx
            some (acc ++ [⟨verb_idx, head_idx == verb_idx⟩])
          | none => none
        else if tf == "MF" || tf == "UK" then
          if relevant_head_tag pos then
            findCompetitionMfGo g head_idx rest (acc ++ [⟨idx, head_idx == idx⟩])
          else
            findCompetitionMfGo g head_idx rest acc
        else none

/-- `find_competition_mf`. -/
def find_competition_mf (g : DGraph) (p_idx head_idx : Nat) :
    Option (List CompetingHead) :=
  findCompetitionMfGo g head_idx (adjacent_tokens g p_idx .preceeding) []

/-- `add_tokens`: push each `relevant_head_tag` token as a candidate; a
missing POS breaks the loop (the candidates gathered so far stand). -/
def add_tokens (g : DGraph) (head_idx : Nat) : List Nat → List CompetingHead
  | [] => []
  | idx :: rest =>
    match posOf g idx with
    | none => []
    | some pos =>
      if relevant_head_tag pos then
        ⟨idx, head_idx == idx⟩ :: add_tokens g head_idx rest
      else
        add_tokens g head_idx rest

/-- `token.pos().unwrap().starts_with("N")` on the token immediately
preceding the PP: panics when that token's POS is missing. -/
def precedingIsNoun (g : DGraph) (p_idx : Nat) : PanicOr Bool :=
  match adjStep g .preceeding p_idx with
  | some prec_idx =>
    match posOf g prec_idx with
    | none => .panicked
    | some pos => .ok (strStarts pos "N")
  | none => .ok false

/-- `find_competition_vf`. -/
def find_competition_vf (g : DGraph) (p_idx head_idx : Nat) :
    PanicOr (Option (List CompetingHead)) :=
  match (adjacent_tokens g p_idx .succeeding).find? (fun i => tfOf g i == some "LK") with
  | none => .ok none
  | some lk_idx =>
    let verb_idx := resolve_verb g lk_idx
    let c0 : CompetingHead :=
      ⟨verb_idx, verb_idx == head_idx || (ancestor_tokens g verb_idx).contains head_idx⟩
    match precedingIsNoun g p_idx with
    | .panicked => .panicked
    | .ok preceding_is_noun =>
      let vf_tokens := (adjacent_tokens g p_idx .preceeding).takeWhile
        fun i => tfOf g i == some "VF" || tfOf g i == some "UK"
      let candidates := c0 :: add_tokens g head_idx vf_tokens
      if preceding_is_noun then .ok (some candidates)
      else
        let mf_tokens := (adjacent_tokens g lk_idx .succeeding).takeWhile
          fun i => tfOf g i == some "MF" || tfOf g i == some "UK"
        .ok (some (candidates ++ add_tokens g head_idx mf_tokens))

/-- The bracket search of `find_competition_nf` step 1: scan the tokens
preceding the PP for the first one in field "VC" or "LK" whose POS starts
with "V"; the POS of every scanned token is `unwrap`ped first, so a missing
POS panics. -/
def findNfBracket (g : DGraph) : List Nat → PanicOr (Option Nat)
  | [] => .ok none
  | i :: rest =>
    match posOf g i with
    | none => .panicked
    | some pos =>
      if (match tfOf g i with
          | some field => (field == "VC" || field == "LK") && strStarts pos "V"
          | none => false) then
        .ok (some i)
      else
        findNfBracket g rest

/-- `find_competition_nf`. -/
def find_competition_nf (g : DGraph) (p_idx head_idx : Nat) :
    PanicOr (Option (List CompetingHead)) :=
  match findNfBracket g (adjacent_tokens g p_idx .preceeding) with
  | .panicked => .panicked
  | .ok none => .ok none
  | .ok (some bracket_idx) =>
    let verb_idx := resolve_verb g bracket_idx
    let c0 : CompetingHead :=
      ⟨verb_idx, verb_idx == head_idx || (ancestor_tokens g verb_idx).contains head_idx⟩
    match precedingIsNoun g p_idx with
    | .panicked => .panicked
    | .ok preceding_is_noun =>
      let nf_tokens := (adjacent_tokens g p_idx .preceeding).takeWhile
        fun i => tfOf g i == some "NF" || tfOf g i == some "UK"
      let candidates := c0 :: add_tokens g head_idx nf_tokens
      if preceding_is_noun then .ok (some candidates)
      else
        match (adjacent_tokens g p_idx .preceeding).find?
            (fun i => tfOf g i == some "C" || tfOf g i == some "LK") with
        | none => .ok none
        | some lk_idx =>
          let mf_tokens := (adjacent_tokens g lk_idx .succeeding).takeWhile
            fun i => tfOf g i == some "MF" || tfOf g i == some "UK"
          .ok (some (candidates ++ add_tokens g head_idx mf_tokens))

instance : Inhabited CompetingHead := ⟨⟨0, false⟩⟩

/-- `competition[i].node.offset` (node indices coincide with offsets). -/
def offsOf (competition : List CompetingHead) (i : Nat) : Nat :=
  (competition.getD i default).node

/-- The comparator of the `before` sort: `Ord::cmp(&b.offset, &a.offset)`,
i.e. descending offset. -/
def descRel (xs : List CompetingHead) (a b : Nat) : Prop :=
  offsOf xs b ≤ offsOf xs a

/-- The comparator of the `after` sort: ascending offset. -/
def ascRel (xs : List CompetingHead) (a b : Nat) : Prop :=
  offsOf xs a ≤ offsOf xs b

instance (xs : List CompetingHead) : DecidableRel (descRel xs) :=
  fun _ _ => Nat.decLe _ _

instance (xs : List CompetingHead) : DecidableRel (ascRel xs) :=
  fun _ _ => Nat.decLe _ _

instance (xs : List CompetingHead) : IsTotal Nat (descRel xs) :=
  ⟨fun a b => Nat.le_total (offsOf xs b) (offsOf xs a)⟩

instance (xs : List CompetingHead) : IsTrans Nat (descRel xs) :=
  ⟨fun _ _ _ h1 h2 => le_trans h2 h1⟩

instance (xs : List CompetingHead) : IsTotal Nat (ascRel xs) :=
  ⟨fun a b => Nat.le_total (offsOf xs a) (offsOf xs b)⟩

instance (xs : List CompetingHead) : IsTrans Nat (ascRel xs) :=
  ⟨fun _ _ _ h1 h2 => le_trans h1 h2⟩

/-- The expected rank values on the "before" side: −1, −2, …, −k. -/
def negRanks (k : Nat) : List Int :=
  (List.range k).map fun m => -(Int.ofNat m + 1)

/-- The expected rank values on the "after" side: +1, +2, …, +k. -/
def posRanks (k : Nat) : List Int :=
  (List.range k).map fun m => Int.ofNat m + 1

/-- The two `for (rank, &idx) in ....iter().enumerate()` loops writing
`sign * (rank + 1)` into position `idx` of the rank vector. -/
def assignLoop (sign : Int) : List Int → List Nat → Nat → List Int
  | ranks, [], _ => ranks
  | ranks, idx :: rest, k => assignLoop sign (ranks.set idx (sign * (k + 1))) rest (k + 1)

/-- `compute_ranks`.  Rust's `sort_by` is a stable sort; Mathlib's
`insertionSort` is also stable, and any two stable sorts under the same
comparator agree, so the embedding is extensionally the source's sort. -/
def compute_ranks (p_offset : Nat) (competition : List CompetingHead) : List Int :=
  let indices := List.range competition.length
  let before := List.insertionSort (descRel competition)
    (indices.filter fun i => decide (offsOf competition i < p_offset))
  let after := List.insertionSort (ascRel competition)
    (indices.filter fun i => decide (p_offset < offsOf competition i))
  let ranks := List.replicate competition.length (0 : Int)
  assignLoop 1 (assignLoop (-1) ranks before 0) after 0

/-- `TrainingInstance` (indices of the preposition node and its PN
complement node, plus the candidate vector). -/
structure TrainingInstance where
  prep : Nat
  prep_obj : Nat
  candidates : List CompetingHead
deriving DecidableEq, Repr

/-- The keys of `STRING_FIELD`. -/
def stringFieldKeys : List String := ["VF", "MF", "NF"]

/-- The body of the edge loop of `extract_ambiguous_pps` for one raw edge:
`.ok none` models every `continue`, `.ok (some inst)` the pushed instance. -/
def processEdge (g : DGraph) (all : Bool) (e : Edge) : PanicOr (Option TrainingInstance) :=
  if e.weight != DepEdge.relation (some "PP") then .ok none
  else
    match posOf g e.src with
    | none => .ok none
    | some head_pos =>
      if !relevant_head_tag head_pos then .ok none
      else
        match tfOf g e.tgt with
        | none => .ok none
        | some pp_field =>
          if !stringFieldKeys.contains pp_field then .ok none
          else
            match first_matching_edge g e.tgt .outgoing
                (fun w => w == DepEdge.relation (some "PN")) with
            | none => .ok none
            | some pn_rel =>
              let competitionR : PanicOr (Option (List CompetingHead)) :=
                if pp_field == "VF" then find_competition_vf g e.tgt e.src
                else if pp_field == "MF" then .ok (find_competition_mf g e.tgt e.src)
                else find_competition_nf g e.tgt e.src
              match competitionR with
              | .panicked => .panicked
              | .ok none => .ok none
              | .ok (some competition) =>
                if !competition.any (·.head) || (!all && competition.length == 1) then
                  .ok none
                else .ok (some ⟨e.tgt, pn_rel, competition⟩)

/-- The loop of `extract_ambiguous_pps` over `graph.raw_edges()` (edge
insertion order); a panic anywhere aborts the whole run. -/
def extractGo (g : DGraph) (all : Bool) : List Edge → PanicOr (List TrainingInstance)
  | [] => .ok []
  | e :: rest =>
    match processEdge g all e with
    | .panicked => .panicked
    | .ok none => extractGo g all rest
    | .ok (some inst) =>
      match extractGo g all rest with
      | .panicked => .panicked
      | .ok insts => .ok (inst :: insts)

/-- `extract_ambiguous_pps`. -/
def extract_ambiguous_pps (g : DGraph) (all : Bool) : PanicOr (List TrainingInstance) :=
  extractGo g all g.edges

/-! ### Concrete sentences used as test inputs -/

/-- A token with the given POS, topological field, 1-based head and head
relation (CoNLL-X rows carry the field in the `tf` feature). -/
def mkTok (pos : Option String) (tf : Option String) (head : Nat) (rel : Option String) :
    Token :=
  ⟨"w", none, pos,
    some (match tf with | some f => [("tf", some f)] | none => []),
    some head, rel, none, none⟩

/-- "Er hat auf … gegeben"-style sentence: subject (VF), finite auxiliary
(LK), PP (MF) with PN complement, past participle (VC) hanging off the
auxiliary by an AUX relation; the PP's gold head is the participle. -/
def sentMF : List Token :=
  [ mkTok (some "NN") (some "VF") 2 (some "SUBJ"),
    mkTok (some "VAFIN") (some "LK") 0 none,
    mkTok (some "APPR") (some "MF") 5 (some "PP"),
    mkTok (some "NN") (some "MF") 3 (some "PN"),
    mkTok (some "VVPP") (some "VC") 2 (some "AUX") ]

def graphMF : DGraph := sentence_to_graph sentMF false

/-- A prefield PP with a relevant noun in VF before it, an article directly
before it, the finite verb in LK after it and a noun in MF: both the
VF-scan and the MF-scan of `find_competition_vf` produce a candidate. -/
def sentVF : List Token :=
  [ mkTok (some "NN") (some "VF") 4 none,
    mkTok (some "ART") (some "VF") 4 none,
    mkTok (some "APPR") (some "VF") 4 (some "PP"),
    mkTok (some "VAFIN") (some "LK") 0 none,
    mkTok (some "NN") (some "MF") 4 (some "OBJA") ]

def graphVF : DGraph := sentence_to_graph sentVF false

/-- A postfield PP directly after the VC verb, with no C- or LK-field token
anywhere in the sentence. -/
def sentNF : List Token :=
  [ mkTok (some "VVFIN") (some "VC") 0 none,
    mkTok (some "APPR") (some "NF") 1 (some "PP") ]

def graphNF : DGraph := sentence_to_graph sentNF false

/-- A prefield PP whose immediately preceding token has no POS tag: the
`.pos().unwrap()` in the noun check of `find_competition_vf` panics. -/
def sentPanic : List Token :=
  [ mkTok none (some "VF") 0 none,
    mkTok (some "APPR") (some "VF") 3 (some "PP"),
    mkTok (some "VAFIN") (some "LK") 0 none,
    mkTok (some "NN") (some "MF") 2 (some "PN") ]

def graphPanic : DGraph := sentence_to_graph sentPanic false

/-- A subordinate clause: complementizer (C) headed by the clause-final
finite verb (VC), a pronoun and the PP in MF; the C token's ancestor chain
reaches the VC verb. -/
def sentCsucc : List Token :=
  [ mkTok (some "KOUS") (some "C") 5 none,
    mkTok (some "PPER") (some "MF") 5 none,
    mkTok (some "APPR") (some "MF") 5 (some "PP"),
    mkTok (some "NN") (some "MF") 3 (some "PN"),
    mkTok (some "VVFIN") (some "VC") 0 none ]

def graphCsucc : DGraph := sentence_to_graph sentCsucc false

/-- A C-field token whose ancestor chain hits an MF-field node before any
VC-field node: the clause's finite verb is not locatable. -/
def sentCfail : List Token :=
  [ mkTok (some "KOUS") (some "C") 2 none,
    mkTok (some "NN") (some "MF") 0 none,
    mkTok (some "APPR") (some "MF") 2 (some "PP") ]

def graphCfail : DGraph := sentence_to_graph sentCfail false

/-- Two tokens whose heads point at each other: the relation structure of
the built graph is a 2-cycle. -/
def sentCyc : List Token :=
  [ mkTok (some "NN") none 2 none,
    mkTok (some "NN") none 1 none ]

def graphCyc : DGraph := sentence_to_graph sentCyc false

/-- A verb with two dependents: its node has two outgoing relation edges. -/
def sentMulti : List Token :=
  [ mkTok (some "VVFIN") none 0 none,
    mkTok (some "NN") none 1 none,
    mkTok (some "NN") none 1 none ]

def graphMulti : DGraph := sentence_to_graph sentMulti false

/-! ### Helper lemmas -/

/-- If the AUX chain from `v` bottoms out within `fuel` steps, the fueled
`resolve_verb` computes exactly the node reached by following AUX edges
until none exists. -/
lemma auxReaches_resolveVerbF (g : DGraph) (fuel : Nat) :
    ∀ v, auxStep g (resolveVerbF g fuel v) = none →
      AuxReaches g v (resolveVerbF g fuel v) := by
  induction fuel with
  | zero =>
    intro v h
    simp only [resolveVerbF] at h ⊢
    exact AuxReaches.refl v h
  | succ n ih =>
    intro v h
    cases hv : auxStep g v with
    | none =>
      simp only [resolveVerbF, hv] at h ⊢
      exact AuxReaches.refl v hv
    | some j =>
      simp only [resolveVerbF, hv] at h ⊢
      exact AuxReaches.step v j _ hv (ih j h)

/-- A preceding token that MF-rule 3 passes over (possibly collecting it):
POS present and not finite, field present and "MF" or "UK". -/
def IsMfSkippable (g : DGraph) (x : Nat) : Prop :=
  ∃ px tfx, posOf g x = some px ∧ finiteVerbTags.contains px = false ∧
    tfOf g x = some tfx ∧ (tfx = "MF" ∨ tfx = "UK")

/-- The candidates MF-rule 3 collects from a run of skippable tokens: the
ones with a relevant (noun/verb) tag, in encounter order. -/
def mfCollect (g : DGraph) (head_idx : Nat) (xs : List Nat) : List CompetingHead :=
  (xs.filter fun x =>
      match posOf g x with
      | some px => relevant_head_tag px
      | none => false).map
    fun x => ⟨x, head_idx == x⟩

lemma mfGo_append_skippable (g : DGraph) (head_idx : Nat) :
    ∀ xs l acc, (∀ x ∈ xs, IsMfSkippable g x) →
      findCompetitionMfGo g head_idx (xs ++ l) acc =
        findCompetitionMfGo g head_idx l (acc ++ mfCollect g head_idx xs) := by
  intro xs
  induction xs with
  | nil => intro l acc _; simp [mfCollect]
  | cons x xs ih =>
    intro l acc hsk
    obtain ⟨px, tfx, hpos, hfin, htf, htfv⟩ := hsk x (List.mem_cons_self x xs)
    have hxs : ∀ y ∈ xs, IsMfSkippable g y := fun y hy => hsk y (List.mem_cons_of_mem x hy)
    have hC : (tfx == "C") = false := by
      rcases htfv with h | h <;> simp [h]
    have hMU : (tfx == "MF" || tfx == "UK") = true := by
      rcases htfv with h | h <;> simp [h]
    simp only [List.cons_append, findCompetitionMfGo, hpos, htf, hfin, hC, hMU,
      Bool.false_eq_true, if_false, if_true, List.append_eq]
    by_cases hrel : relevant_head_tag px = true
    · rw [if_pos hrel, ih l _ hxs]
      simp [mfCollect, hpos, hrel, List.append_assoc]
    · rw [if_neg hrel, ih l acc hxs]
      simp only [mfCollect, List.filter_cons, hpos]
      rw [if_neg hrel]

lemma traverseGo_reaches_vc (g : DGraph) :
    ∀ cs v rest, (∀ x ∈ cs, tfOf g x = some "C") → tfOf g v = some "VC" →
      traverseCtoVcGo g (cs ++ v :: rest) = some v := by
  intro cs
  induction cs with
  | nil => intro v rest _ hv; simp [traverseCtoVcGo, hv]
  | cons c cs ih =>
    intro v rest hc hv
    have hcc : tfOf g c = some "C" := hc c (List.mem_cons_self c cs)
    have e1 : (("C" : String) == "VC") = false := by decide
    have e2 : (("C" : String) != "C") = false := by decide
    simp only [List.cons_append, traverseCtoVcGo, hcc, e1, e2, Bool.false_eq_true, if_false]
    exact ih v rest (fun x hx => hc x (List.mem_cons_of_mem c hx)) hv

lemma traverseGo_other_field (g : DGraph) :
    ∀ cs v rest f, (∀ x ∈ cs, tfOf g x = some "C") → tfOf g v = some f →
      f ≠ "C" → f ≠ "VC" → traverseCtoVcGo g (cs ++ v :: rest) = none := by
  intro cs
  induction cs with
  | nil =>
    intro v rest f _ hv hne1 hne2
    have e1 : (f == "VC") = false := by simp [hne2]
    have e2 : (f != "C") = true := by simp [hne1]
    simp [traverseCtoVcGo, hv, e1, e2]
  | cons c cs ih =>
    intro v rest f hc hv hne1 hne2
    have hcc : tfOf g c = some "C" := hc c (List.mem_cons_self c cs)
    have e1 : (("C" : String) == "VC") = false := by decide
    have e2 : (("C" : String) != "C") = false := by decide
    simp only [List.cons_append, traverseCtoVcGo, hcc, e1, e2, Bool.false_eq_true, if_false]
    exact ih v rest f (fun x hx => hc x (List.mem_cons_of_mem c hx)) hv hne1 hne2

lemma assignLoop_length (s : Int) :
    ∀ (l : List Nat) (r : List Int) (k : Nat), (assignLoop s r l k).length = r.length := by
  intro l
  induction l with
  | nil => intro r k; rfl
  | cons x xs ih =>
    intro r k
    rw [assignLoop, ih, List.length_set]

lemma assignLoop_getD_not_mem (s : Int) :
    ∀ (l : List Nat) (r : List Int) (k j : Nat), j ∉ l →
      (assignLoop s r l k).getD j 0 = r.getD j 0 := by
  intro l
  induction l with
  | nil => intro r k j _; rfl
  | cons x xs ih =>
    intro r k j hj
    have hjx : j ≠ x := fun h => hj (h ▸ List.mem_cons_self x xs)
    have hjxs : j ∉ xs := fun h => hj (List.mem_cons_of_mem x h)
    rw [assignLoop, ih _ _ _ hjxs, List.getD_eq_getElem?_getD,
      List.getElem?_set_ne (Ne.symm hjx), ← List.getD_eq_getElem?_getD]

lemma assignLoop_getD_get (s : Int) :
    ∀ (l : List Nat) (r : List Int) (k m : Nat), l.Nodup → (∀ x ∈ l, x < r.length) →
      m < l.length →
      (assignLoop s r l k).getD (l.getD m 0) 0 = s * (k + m + 1) := by
  intro l
  induction l with
  | nil => intro r k m _ _ hm; exact absurd hm (by simp)
  | cons x xs ih =>
    intro r k m hnd hlt hm
    cases m with
    | zero =>
      have hx : x ∉ xs := (List.nodup_cons.mp hnd).1
      have hxr : x < r.length := hlt x (List.mem_cons_self x xs)
      show (assignLoop s r (x :: xs) k).getD x 0 = _
      rw [assignLoop, assignLoop_getD_not_mem s xs _ _ _ (by simpa using hx),
        List.getD_eq_getElem?_getD, List.getElem?_set_self hxr]
      simp
    | succ m' =>
      have hnd' : xs.Nodup := (List.nodup_cons.mp hnd).2
      have hlt' : ∀ y ∈ xs, y < (r.set x (s * (k + 1))).length := by
        intro y hy
        rw [List.length_set]
        exact hlt y (List.mem_cons_of_mem x hy)
      have hm' : m' < xs.length := by simpa using hm
      have := ih (r.set x (s * (k + 1))) (k + 1) m' hnd' hlt' hm'
      rw [assignLoop]
      show (assignLoop s (r.set x (s * (k + 1))) xs (k + 1)).getD (xs.getD m' 0) 0 = _
      rw [this]
      congr 1
      push_cast
      ring

lemma mem_tokenEdges (proj : Bool) (idx : Nat) (t : Token) (e : Edge) :
    e ∈ tokenEdges proj idx t ↔
      (0 < idx ∧ e = ⟨idx - 1, idx, .precedence⟩) ∨
      (∃ h, (if proj then t.pHead else t.head) = some h ∧ h ≠ 0 ∧
        e = ⟨h - 1, idx, .relation (if proj then t.pHeadRel else t.headRel)⟩) := by
  unfold tokenEdges
  by_cases hidx : 0 < idx
  · cases hh : (if proj then t.pHead else t.head) with
    | none => simp [hidx, hh]
    | some h =>
      by_cases h0 : h = 0
      · simp [hidx, hh, h0]
      · simp [hidx, hh, h0]
  · cases hh : (if proj then t.pHead else t.head) with
    | none => simp [hidx, hh]
    | some h =>
      by_cases h0 : h = 0
      · simp [hidx, hh, h0]
      · simp [hidx, hh, h0]

lemma mem_buildEdges (proj : Bool) (e : Edge) :
    ∀ (s : List Token) (k : Nat),
      e ∈ buildEdges proj k s ↔ ∃ m t, s[m]? = some t ∧ e ∈ tokenEdges proj (k + m) t := by
  intro s
  induction s with
  | nil => intro k; simp [buildEdges]
  | cons t rest ih =>
    intro k
    rw [buildEdges, List.mem_append, ih (k + 1)]
    constructor
    · rintro (h | ⟨m, t', hm, he⟩)
      · exact ⟨0, t, by simp, by simpa using h⟩
      · refine ⟨m + 1, t', by simpa using hm, ?_⟩
        have harith : k + 1 + m = k + (m + 1) := by omega
        rwa [harith] at he
    · rintro ⟨m, t', hm, he⟩
      cases m with
      | zero =>
        left
        have ht : t = t' := by simpa using hm
        subst ht
        simpa using he
      | succ m' =>
        right
        refine ⟨m', t', by simpa using hm, ?_⟩
        have harith : k + 1 + m' = k + (m' + 1) := by omega
        rwa [harith]

lemma tokenEdges_prec_filter_pos (proj : Bool) (idx : Nat) (t : Token) (hidx : 0 < idx) :
    ((tokenEdges proj idx t).filter fun e => e.weight == DepEdge.precedence).length = 1 := by
  unfold tokenEdges
  rw [if_pos hidx, List.filter_append]
  cases hh : (if proj then t.pHead else t.head) with
  | none => simp
  | some h =>
    by_cases h0 : h = 0
    · simp [h0]
    · simp [h0]

lemma tokenEdges_prec_filter_zero (proj : Bool) (t : Token) :
    ((tokenEdges proj 0 t).filter fun e => e.weight == DepEdge.precedence).length = 0 := by
  unfold tokenEdges
  cases hh : (if proj then t.pHead else t.head) with
  | none => simp [hh]
  | some h =>
    by_cases h0 : h = 0
    · simp [hh, h0]
    · simp [hh, h0]

lemma buildEdges_prec_count_pos (proj : Bool) :
    ∀ (s : List Token) (k : Nat), k ≠ 0 →
      ((buildEdges proj k s).filter fun e => e.weight == DepEdge.precedence).length =
        s.length := by
  intro s
  induction s with
  | nil => intro k _; rfl
  | cons t rest ih =>
    intro k hk
    rw [buildEdges, List.filter_append, List.length_append, ih (k + 1) (by omega),
      tokenEdges_prec_filter_pos proj k t (Nat.pos_of_ne_zero hk)]
    simp only [List.length_cons]
    omega

lemma buildEdges_prec_count_zero (proj : Bool) (s : List Token) :
    ((buildEdges proj 0 s).filter fun e => e.weight == DepEdge.precedence).length =
      s.length - 1 := by
  cases s with
  | nil => rfl
  | cons t rest =>
    rw [buildEdges, List.filter_append, List.length_append,
      buildEdges_prec_count_pos proj rest 1 one_ne_zero, tokenEdges_prec_filter_zero]
    simp

lemma tokenEdges_rel_filter_le (proj : Bool) (idx : Nat) (t : Token) :
    ((tokenEdges proj idx t).filter fun e => e.weight.isRelation).length ≤ 1 := by
  unfold tokenEdges
  rw [List.filter_append]
  by_cases hidx : 0 < idx
  · rw [if_pos hidx]
    cases hh : (if proj then t.pHead else t.head) with
    | none => simp [DepEdge.isRelation]
    | some h =>
      by_cases h0 : h = 0
      · simp [h0, DepEdge.isRelation]
      · simp [h0, DepEdge.isRelation]
  · rw [if_neg hidx]
    cases hh : (if proj then t.pHead else t.head) with
    | none => simp [DepEdge.isRelation]
    | some h =>
      by_cases h0 : h = 0
      · simp [h0, DepEdge.isRelation]
      · simp [h0, DepEdge.isRelation]

lemma buildEdges_rel_count_le (proj : Bool) :
    ∀ (s : List Token) (k : Nat),
      ((buildEdges proj k s).filter fun e => e.weight.isRelation).length ≤ s.length := by
  intro s
  induction s with
  | nil => intro k; simp [buildEdges]
  | cons t rest ih =>
    intro k
    rw [buildEdges, List.filter_append, List.length_append]
    have h1 := tokenEdges_rel_filter_le proj k t
    have h2 := ih (k + 1)
    simp only [List.length_cons]
    omega

lemma buildEdges_rel_into_high (proj : Bool) :
    ∀ (s : List Token) (k j : Nat), j < k →
      ((buildEdges proj k s).filter fun e => e.tgt == j && e.weight.isRelation).length = 0 := by
  intro s
  induction s with
  | nil => intro k j _; rfl
  | cons t rest ih =>
    intro k j hj
    rw [buildEdges, List.filter_append, List.length_append, ih (k + 1) j (by omega)]
    have htok : ((tokenEdges proj k t).filter
        fun e => e.tgt == j && e.weight.isRelation).length = 0 := by
      unfold tokenEdges
      rw [List.filter_append]
      have hkj : (k == j) = false := by simp; omega
      by_cases hidx : 0 < k
      · rw [if_pos hidx]
        cases hh : (if proj then t.pHead else t.head) with
        | none => simp [DepEdge.isRelation]
        | some h =>
          by_cases h0 : h = 0
          · simp [h0, DepEdge.isRelation]
          · simp [h0, DepEdge.isRelation, hkj]
      · rw [if_neg hidx]
        cases hh : (if proj then t.pHead else t.head) with
        | none => simp
        | some h =>
          by_cases h0 : h = 0
          · simp [h0]
          · simp [h0, DepEdge.isRelation, hkj]
    omega

lemma buildEdges_rel_into (proj : Bool) :
    ∀ (s : List Token) (k j : Nat),
      ((buildEdges proj k s).filter fun e => e.tgt == (k + j) && e.weight.isRelation).length =
        (match s[j]? with
         | some t =>
           (match (if proj then t.pHead else t.head) with
            | some h => if h ≠ 0 then 1 else 0
            | none => 0)
         | none => 0) := by
  intro s
  induction s with
  | nil => intro k j; simp [buildEdges]
  | cons t rest ih =>
    intro k j
    rw [buildEdges, List.filter_append, List.length_append]
    cases j with
    | zero =>
      rw [buildEdges_rel_into_high proj rest (k + 1) (k + 0) (by omega)]
      have htok : ((tokenEdges proj k t).filter
          fun e => e.tgt == (k + 0) && e.weight.isRelation).length =
          (match (if proj then t.pHead else t.head) with
           | some h => if h ≠ 0 then 1 else 0
           | none => 0) := by
        unfold tokenEdges
        rw [List.filter_append]
        by_cases hidx : 0 < k
        · rw [if_pos hidx]
          cases hh : (if proj then t.pHead else t.head) with
          | none => simp [DepEdge.isRelation]
          | some h =>
            by_cases h0 : h = 0
            · simp [h0, DepEdge.isRelation]
            · simp [h0, DepEdge.isRelation]
        · rw [if_neg hidx]
          cases hh : (if proj then t.pHead else t.head) with
          | none => simp
          | some h =>
            by_cases h0 : h = 0
            · simp [h0]
            · simp [h0, DepEdge.isRelation]
      rw [htok]
      simp
    | succ j' =>
      have harith : k + (j' + 1) = (k + 1) + j' := by omega
      rw [harith, ih (k + 1) j']
      have htok : ((tokenEdges proj k t).filter
          fun e => e.tgt == (k + 1 + j') && e.weight.isRelation).length = 0 := by
        unfold tokenEdges
        rw [List.filter_append]
        have hkj : (k == k + 1 + j') = false := by simp; omega
        by_cases hidx : 0 < k
        · rw [if_pos hidx]
          cases hh : (if proj then t.pHead else t.head) with
          | none => simp [DepEdge.isRelation]
          | some h =>
            by_cases h0 : h = 0
            · simp [h0, DepEdge.isRelation]
            · simp [h0, DepEdge.isRelation, hkj]
        · rw [if_neg hidx]
          cases hh : (if proj then t.pHead else t.head) with
          | none => simp
          | some h =>
            by_cases h0 : h = 0
            · simp [h0]
            · simp [h0, DepEdge.isRelation, hkj]
      rw [htok]
      simp

/-! ### Claim theorems -/

/-- C1: when the token immediately preceding the PP has a topological-field
feature and a finite-verb POS tag (VVFIN/VAFIN/VMFIN), the MF competition
procedure returns exactly one candidate, namely the bottom of the finite
verb's AUX chain (`resolve_verb`), with head flag true iff that node is the
gold head, and scans no further token. -/
theorem mf_finite_verb_sole_candidate (g : DGraph) (p_idx head_idx i : Nat)
    (rest : List Nat) (pos tf : String)
    (hadj : adjacent_tokens g p_idx .preceeding = i :: rest)
    (hpos : posOf g i = some pos)
    (hfin : finiteVerbTags.contains pos = true)
    (htf : tfOf g i = some tf)
    (hterm : auxStep g (resolve_verb g i) = none) :
    find_competition_mf g p_idx head_idx =
      some [⟨resolve_verb g i, resolve_verb g i == head_idx⟩] ∧
    AuxReaches g i (resolve_verb g i) ∧
    ((resolve_verb g i == head_idx) = true ↔ resolve_verb g i = head_idx) := by
  refine ⟨?_, auxReaches_resolveVerbF g _ i hterm, by simp⟩
  unfold find_competition_mf
  rw [hadj]
  simp only [findCompetitionMfGo, hpos, htf, hfin, if_true, List.nil_append]

/-- Witness for C1 on `sentMF`: the token before the MF PP is the finite
auxiliary "hat", whose AUX chain bottoms at the participle (node 4), the
gold head. -/
theorem mf_finite_verb_sole_candidate_witness :
    find_competition_mf graphMF 2 4 = some [⟨4, true⟩] ∧ AuxReaches graphMF 1 4 := by
  have h := mf_finite_verb_sole_candidate graphMF 2 4 1 [0] "VAFIN" "LK"
    (by decide) (by decide) (by decide) (by decide) (by decide)
  refine ⟨?_, ?_⟩
  · rw [h.1]; decide
  · have h2 := h.2.1
    have : resolve_verb graphMF 1 = 4 := by decide
    rwa [this] at h2

/-- C4: when the nearest preceding token not matching an earlier MF rule is
in field "C", the procedure walks that token's ancestor chain: reaching a
"VC" node before any node whose field is neither "C" nor "VC" appends that
node's resolved verb chain as the final candidate; reaching a node of any
other field first makes `traverse_c_to_vc` — and with it the whole MF
procedure — return nothing, so the PP is abandoned. -/
theorem mf_c_field_clause_resolution :
    (∀ (g : DGraph) (i : Nat) (cs : List Nat) (v : Nat) (rest : List Nat),
       ancestor_tokens g i = cs ++ v :: rest →
       (∀ x ∈ cs, tfOf g x = some "C") → tfOf g v = some "VC" →
       traverse_c_to_vc g i = some v) ∧
    (∀ (g : DGraph) (i : Nat) (cs : List Nat) (v : Nat) (rest : List Nat) (f : String),
       ancestor_tokens g i = cs ++ v :: rest →
       (∀ x ∈ cs, tfOf g x = some "C") → tfOf g v = some f →
       f ≠ "C" → f ≠ "VC" →
       traverse_c_to_vc g i = none) ∧
    (∀ (g : DGraph) (p_idx head_idx : Nat) (xs : List Nat) (c : Nat) (rest : List Nat)
       (pc : String),
       adjacent_tokens g p_idx .preceeding = xs ++ c :: rest →
       (∀ x ∈ xs, IsMfSkippable g x) →
       posOf g c = some pc → finiteVerbTags.contains pc = false →
       tfOf g c = some "C" →
       (∀ finite_idx, traverse_c_to_vc g c = some finite_idx →
          find_competition_mf g p_idx head_idx =
            some (mfCollect g head_idx xs ++
              [⟨resolve_verb g finite_idx, head_idx == resolve_verb g finite_idx⟩])) ∧
       (traverse_c_to_vc g c = none → find_competition_mf g p_idx head_idx = none)) := by
  refine ⟨fun g i cs v rest hsp hcs hv => ?_, fun g i cs v rest f hsp hcs hv h1 h2 => ?_,
    fun g p_idx head_idx xs c rest pc hadj hsk hpos hfin htf => ?_⟩
  · rw [traverse_c_to_vc, hsp]
    exact traverseGo_reaches_vc g cs v rest hcs hv
  · rw [traverse_c_to_vc, hsp]
    exact traverseGo_other_field g cs v rest f hcs hv h1 h2
  · have e1 : (("C" : String) == "C") = true := by decide
    have hbase : ∀ acc, findCompetitionMfGo g head_idx (c :: rest) acc =
        match traverse_c_to_vc g c with
        | some finite_idx =>
          some (acc ++ [⟨resolve_verb g finite_idx, head_idx == resolve_verb g finite_idx⟩])
        | none => none := by
      intro acc
      simp only [findCompetitionMfGo, hpos, htf, hfin, e1, Bool.false_eq_true, if_false,
        if_true]
    constructor
    · intro finite_idx htr
      rw [find_competition_mf, hadj, mfGo_append_skippable g head_idx xs (c :: rest) [] hsk,
        hbase, htr, List.nil_append]
    · intro htr
      rw [find_competition_mf, hadj, mfGo_append_skippable g head_idx xs (c :: rest) [] hsk,
        hbase, htr]

/-- Witness for C4: in `sentCsucc` the C token's ancestor chain reaches the
VC verb, so the PP gets that verb as final candidate; in `sentCfail` the
chain hits an MF node first, so the PP is abandoned. -/
theorem mf_c_field_clause_resolution_witness :
    find_competition_mf graphCsucc 2 4 = some [⟨4, true⟩] ∧
    find_competition_mf graphCfail 2 1 = none := by
  constructor
  · have h := (mf_c_field_clause_resolution.2.2 graphCsucc 2 4 [1] 0 [] "KOUS"
      (by decide)
      (by intro x hx
          simp only [List.mem_singleton] at hx
          subst hx
          exact ⟨"PPER", "MF", by decide, by decide, by decide, Or.inl rfl⟩)
      (by decide) (by decide) (by decide)).1 4 (by decide)
    rw [h]; decide
  · exact (mf_c_field_clause_resolution.2.2 graphCfail 2 1 [1] 0 [] "KOUS"
      (by decide)
      (by intro x hx
          simp only [List.mem_singleton] at hx
          subst hx
          exact ⟨"NN", "MF", by decide, by decide, by decide, Or.inl rfl⟩)
      (by decide) (by decide) (by decide)).2 (by decide)

/-- C10: in the NF procedure, when the token before the PP is not
noun-tagged and no preceding token is in field "C" or "LK", the whole
procedure returns nothing — the bracket-verb candidate and the NF-field
candidates already collected are discarded, not returned. -/
theorem nf_missing_bracket_discards_candidates (g : DGraph) (p_idx head_idx b_idx : Nat)
    (hb : findNfBracket g (adjacent_tokens g p_idx .preceeding) = .ok (some b_idx))
    (hpin : precedingIsNoun g p_idx = .ok false)
    (hfind : (adjacent_tokens g p_idx .preceeding).find?
        (fun i => tfOf g i == some "C" || tfOf g i == some "LK") = none) :
    find_competition_nf g p_idx head_idx = .ok none := by
  simp only [find_competition_nf, hb, hpin, hfind, Bool.false_eq_true, if_false]

/-- Witness for C10 on `sentNF`: step 1 finds the VC verb and collects it,
the PP is not noun-preceded, no C/LK token exists, and the procedure
returns nothing. -/
theorem nf_missing_bracket_discards_candidates_witness :
    find_competition_nf graphNF 1 0 = PanicOr.ok none :=
  nf_missing_bracket_discards_candidates graphNF 1 0 0 (by decide) (by decide) (by decide)

/-- C6: in the VF and NF procedures, whenever a candidate list is returned,
its first candidate is the resolved bracket verb, and its head flag is true
iff that node equals the gold head or the gold head occurs in the
`ancestor_tokens` sequence started there. -/
theorem bracket_verb_head_flag :
    (∀ (g : DGraph) (p_idx head_idx lk_idx : Nat) (pin : Bool)
       (cs : List CompetingHead),
       (adjacent_tokens g p_idx .succeeding).find? (fun i => tfOf g i == some "LK") =
         some lk_idx →
       precedingIsNoun g p_idx = .ok pin →
       find_competition_vf g p_idx head_idx = .ok (some cs) →
       ∃ tail, cs =
           ⟨resolve_verb g lk_idx,
             resolve_verb g lk_idx == head_idx ||
               (ancestor_tokens g (resolve_verb g lk_idx)).contains head_idx⟩ :: tail ∧
         ((resolve_verb g lk_idx == head_idx ||
             (ancestor_tokens g (resolve_verb g lk_idx)).contains head_idx) = true ↔
           (resolve_verb g lk_idx = head_idx ∨
             head_idx ∈ ancestor_tokens g (resolve_verb g lk_idx)))) ∧
    (∀ (g : DGraph) (p_idx head_idx b_idx : Nat) (pin : Bool)
       (cs : List CompetingHead),
       findNfBracket g (adjacent_tokens g p_idx .preceeding) = .ok (some b_idx) →
       precedingIsNoun g p_idx = .ok pin →
       find_competition_nf g p_idx head_idx = .ok (some cs) →
       ∃ tail, cs =
           ⟨resolve_verb g b_idx,
             resolve_verb g b_idx == head_idx ||
               (ancestor_tokens g (resolve_verb g b_idx)).contains head_idx⟩ :: tail ∧
         ((resolve_verb g b_idx == head_idx ||
             (ancestor_tokens g (resolve_verb g b_idx)).contains head_idx) = true ↔
           (resolve_verb g b_idx = head_idx ∨
             head_idx ∈ ancestor_tokens g (resolve_verb g b_idx)))) := by
  constructor
  · intro g p_idx head_idx lk_idx pin cs hlk hpin hres
    simp only [find_competition_vf, hlk, hpin] at hres
    cases pin with
    | true =>
      simp only [if_true] at hres
      injection hres with h
      injection h with h
      exact ⟨_, h.symm, by simp [List.elem_iff]⟩
    | false =>
      simp only [Bool.false_eq_true, if_false, List.cons_append] at hres
      injection hres with h
      injection h with h
      exact ⟨_, h.symm, by simp [List.elem_iff]⟩
  · intro g p_idx head_idx b_idx pin cs hb hpin hres
    simp only [find_competition_nf, hb, hpin] at hres
    cases pin with
    | true =>
      simp only [if_true] at hres
      injection hres with h
      injection h with h
      exact ⟨_, h.symm, by simp [List.elem_iff]⟩
    | false =>
      simp only [Bool.false_eq_true, if_false, List.cons_append] at hres
      cases hf : (adjacent_tokens g p_idx .preceeding).find?
          (fun i => tfOf g i == some "C" || tfOf g i == some "LK") with
      | none =>
        rw [hf] at hres
        exact absurd hres (by simp)
      | some lk2 =>
        rw [hf] at hres
        injection hres with h
        injection h with h
        exact ⟨_, h.symm, by simp [List.elem_iff]⟩

/-- Witness for C6 on `sentVF` and `sentNF`: in both procedures the first
candidate is the resolved bracket verb with head flag true (it is the gold
head itself). -/
theorem bracket_verb_head_flag_witness :
    (∃ tail, ([⟨3, true⟩, ⟨0, false⟩, ⟨4, false⟩] : List CompetingHead) =
        ⟨resolve_verb graphVF 3,
          resolve_verb graphVF 3 == 3 ||
            (ancestor_tokens graphVF (resolve_verb graphVF 3)).contains 3⟩ :: tail ∧
      ((resolve_verb graphVF 3 == 3 ||
          (ancestor_tokens graphVF (resolve_verb graphVF 3)).contains 3) = true ↔
        (resolve_verb graphVF 3 = 3 ∨ 3 ∈ ancestor_tokens graphVF (resolve_verb graphVF 3)))) :=
  bracket_verb_head_flag.1 graphVF 2 3 3 false [⟨3, true⟩, ⟨0, false⟩, ⟨4, false⟩]
    (by decide) (by decide) (by decide)

/-- C5 (amended order): the VF procedure returns the resolved left-bracket
verb first, then the candidates of the backward VF/UK scan, then — only
when the PP is not noun-preceded — the candidates of the forward MF/UK scan
from the bracket. -/
theorem vf_candidate_order (g : DGraph) (p_idx head_idx lk_idx : Nat) (pin : Bool)
    (hlk : (adjacent_tokens g p_idx .succeeding).find? (fun i => tfOf g i == some "LK") =
      some lk_idx)
    (hpin : precedingIsNoun g p_idx = .ok pin) :
    find_competition_vf g p_idx head_idx = .ok (some
      ((⟨resolve_verb g lk_idx,
          resolve_verb g lk_idx == head_idx ||
            (ancestor_tokens g (resolve_verb g lk_idx)).contains head_idx⟩ ::
        add_tokens g head_idx ((adjacent_tokens g p_idx .preceeding).takeWhile
          fun i => tfOf g i == some "VF" || tfOf g i == some "UK")) ++
       (if pin then [] else
        add_tokens g head_idx ((adjacent_tokens g lk_idx .succeeding).takeWhile
          fun i => tfOf g i == some "MF" || tfOf g i == some "UK")))) := by
  simp only [find_competition_vf, hlk, hpin]
  cases pin with
  | true => simp
  | false => simp

/-- Witness for C5's amended order on `sentVF`: the VF-scan candidate
(node 0, field VF) precedes the MF-scan candidate (node 4, field MF). -/
theorem vf_candidate_order_witness :
    find_competition_vf graphVF 2 3 =
      .ok (some [⟨3, true⟩, ⟨0, false⟩, ⟨4, false⟩]) := by
  have h := vf_candidate_order graphVF 2 3 3 false (by decide) (by decide)
  rw [h]; decide

/-- Counterexample for C5 as stated: on `sentVF` the returned list places
the VF-field token (node 0) before the MF-field token (node 4), while the
claimed order (bracket verb, then MF-scan candidates, then VF-scan
candidates) would place node 4 second. -/
theorem vf_claimed_order_refuted :
    find_competition_vf graphVF 2 3 = .ok (some [⟨3, true⟩, ⟨0, false⟩, ⟨4, false⟩]) ∧
    tfOf graphVF 0 = some "VF" ∧ tfOf graphVF 4 = some "MF" ∧
    ([⟨3, true⟩, ⟨0, false⟩, ⟨4, false⟩] : List CompetingHead) ≠
      [⟨3, true⟩, ⟨4, false⟩, ⟨0, false⟩] := by decide

/-- C8: on `sentPanic` — a VF PP whose immediately preceding token has no
POS tag — the noun check of `find_competition_vf` hits `.pos().unwrap()`
on `None` and panics, so extraction aborts instead of silently skipping
the PP as the specification requires. -/
theorem missing_pos_panics_instead_of_skipping :
    posOf graphPanic 0 = none ∧
    find_competition_vf graphPanic 1 2 = .panicked ∧
    extract_ambiguous_pps graphPanic false = .panicked ∧
    extract_ambiguous_pps graphPanic true = .panicked := by decide

/-- C7: the `AncestorTokens` iterator has no iteration cap: on the 2-token
sentence `sentCyc`, whose heads point at each other, it yields `k` elements
for every `k`, never terminating, contrary to the claimed bound of at most
`n` elements on cyclic relation structures. -/
theorem ancestor_iteration_unbounded_on_cycle :
    sentCyc.length = 2 ∧
    (∀ k, (ancestorTokensF graphCyc k 0).length = k) := by
  refine ⟨rfl, ?_⟩
  have h0 : ancStep graphCyc 0 = some 1 := by decide
  have h1 : ancStep graphCyc 1 = some 0 := by decide
  have key : ∀ k, (ancestorTokensF graphCyc k 0).length = k ∧
      (ancestorTokensF graphCyc k 1).length = k := by
    intro k
    induction k with
    | zero => exact ⟨rfl, rfl⟩
    | succ n ih =>
      constructor
      · simp only [ancestorTokensF, h0, List.length_cons, ih.2]
      · simp only [ancestorTokensF, h1, List.length_cons, ih.1]
  exact fun k => (key k).1

/-- C2: once a PP edge passed the earlier per-edge checks and its
competition procedure returned a candidate list, an instance is emitted if
and only if some candidate carries the head flag and either the include-all
flag is set or there is more than one candidate; a sole gold-head candidate
is emitted in include-all mode and suppressed otherwise. -/
theorem pp_instance_filter (g : DGraph) (all : Bool) (e : Edge)
    (head_pos pp_field : String) (pn_rel : Nat) (competition : List CompetingHead)
    (he : e.weight = DepEdge.relation (some "PP"))
    (hpos : posOf g e.src = some head_pos)
    (hrel : relevant_head_tag head_pos = true)
    (htf : tfOf g e.tgt = some pp_field)
    (hfield : stringFieldKeys.contains pp_field = true)
    (hpn : first_matching_edge g e.tgt .outgoing
        (fun w => w == DepEdge.relation (some "PN")) = some pn_rel)
    (hcomp : (if pp_field == "VF" then find_competition_vf g e.tgt e.src
              else if pp_field == "MF" then .ok (find_competition_mf g e.tgt e.src)
              else find_competition_nf g e.tgt e.src) = .ok (some competition)) :
    (processEdge g all e = .ok (some ⟨e.tgt, pn_rel, competition⟩) ↔
      (competition.any (fun c => c.head) = true ∧ (all = true ∨ 1 < competition.length))) ∧
    (processEdge g all e = .ok none ↔
      ¬(competition.any (fun c => c.head) = true ∧ (all = true ∨ 1 < competition.length))) ∧
    (∀ h : Nat, competition = [⟨h, true⟩] →
      processEdge g true e = .ok (some ⟨e.tgt, pn_rel, competition⟩) ∧
      processEdge g false e = .ok none) := by
  have hlenpos : competition.any (fun c => c.head) = true → 0 < competition.length := by
    intro h
    rcases List.any_eq_true.mp h with ⟨x, hx, _⟩
    exact List.length_pos.mpr (List.ne_nil_of_mem hx)
  have hpe : ∀ a : Bool, processEdge g a e =
      if !competition.any (fun c => c.head) || (!a && competition.length == 1) then
        PanicOr.ok none
      else .ok (some ⟨e.tgt, pn_rel, competition⟩) := by
    intro a
    simp only [processEdge, he, hpos, htf, hpn, hrel, hfield, hcomp, bne_self_eq_false,
      Bool.not_true, Bool.false_eq_true, if_false]
  have hbool : ∀ a : Bool,
      (!competition.any (fun c => c.head) || (!a && competition.length == 1)) = false ↔
      (competition.any (fun c => c.head) = true ∧ (a = true ∨ 1 < competition.length)) := by
    intro a
    constructor
    · intro h
      rcases Bool.or_eq_false_iff.mp h with ⟨h1, h2⟩
      have hany : competition.any (fun c => c.head) = true := by
        simpa using h1
      refine ⟨hany, ?_⟩
      cases ha : a with
      | true => exact Or.inl rfl
      | false =>
        right
        rw [ha] at h2
        have hne : competition.length ≠ 1 := by simpa using h2
        have := hlenpos hany
        omega
    · rintro ⟨hany, hcase⟩
      rw [Bool.or_eq_false_iff]
      refine ⟨by simp [hany], ?_⟩
      rcases hcase with h | h
      · simp [h]
      · have hne : (competition.length == 1) = false := by
          simp only [beq_eq_false_iff_ne, ne_eq]
          omega
        simp [hne]
  refine ⟨?_, ?_, ?_⟩
  · rw [hpe all]
    constructor
    · intro h
      by_contra hc
      have hb : (!competition.any (fun c => c.head) ||
          (!all && competition.length == 1)) = true := by
        cases hb : (!competition.any (fun c => c.head) ||
            (!all && competition.length == 1)) with
        | true => rfl
        | false => exact absurd ((hbool all).mp hb) hc
      rw [hb] at h
      simp at h
    · intro h
      rw [if_neg]
      rw [(hbool all).mpr h]
      simp
  · rw [hpe all]
    constructor
    · intro h hc
      rw [if_neg (by rw [(hbool all).mpr hc]; simp)] at h
      simp at h
    · intro h
      rw [if_pos]
      cases hb : (!competition.any (fun c => c.head) ||
          (!all && competition.length == 1)) with
      | true => rfl
      | false => exact absurd ((hbool all).mp hb) h
  · intro h hceq
    subst hceq
    constructor
    · rw [hpe true]
      simp
    · rw [hpe false]
      simp

/-- C3 (amended): for a candidate sequence in which no candidate sits at
the PP's own offset, `compute_ranks` returns one rank per candidate in
input order; candidates before the PP get negative ranks, candidates after
it positive ones, no rank is 0, ranks decrease away from the PP on both
sides, and each side receives exactly the ranks −1,−2,… resp. +1,+2,…  (A
candidate at the PP's own offset would keep the initial rank 0, refuting
the unconditional claim.) -/
theorem compute_ranks_signed_distance (p_offset : Nat) (xs : List CompetingHead)
    (hne : ∀ c ∈ xs, c.node ≠ p_offset) :
    (compute_ranks p_offset xs).length = xs.length ∧
    (∀ i, i < xs.length → offsOf xs i < p_offset →
      (compute_ranks p_offset xs).getD i 0 < 0) ∧
    (∀ i, i < xs.length → p_offset < offsOf xs i →
      0 < (compute_ranks p_offset xs).getD i 0) ∧
    (∀ i, i < xs.length → (compute_ranks p_offset xs).getD i 0 ≠ 0) ∧
    (∀ i j, i < xs.length → j < xs.length →
      offsOf xs i < p_offset → offsOf xs j < p_offset → offsOf xs j < offsOf xs i →
      (compute_ranks p_offset xs).getD j 0 < (compute_ranks p_offset xs).getD i 0) ∧
    (∀ i j, i < xs.length → j < xs.length →
      p_offset < offsOf xs i → p_offset < offsOf xs j → offsOf xs i < offsOf xs j →
      (compute_ranks p_offset xs).getD i 0 < (compute_ranks p_offset xs).getD j 0) ∧
    (((List.range xs.length).filter fun i => decide (offsOf xs i < p_offset)).map
        (fun i => (compute_ranks p_offset xs).getD i 0)).Perm
      (negRanks ((List.range xs.length).filter fun i =>
          decide (offsOf xs i < p_offset)).length) ∧
    (((List.range xs.length).filter fun i => decide (p_offset < offsOf xs i)).map
        (fun i => (compute_ranks p_offset xs).getD i 0)).Perm
      (posRanks ((List.range xs.length).filter fun i =>
          decide (p_offset < offsOf xs i)).length) := by
  set Fb := (List.range xs.length).filter fun i => decide (offsOf xs i < p_offset) with hFbdef
  set Fa := (List.range xs.length).filter fun i => decide (p_offset < offsOf xs i) with hFadef
  set B := List.insertionSort (descRel xs) Fb with hBdef
  set A := List.insertionSort (ascRel xs) Fa with hAdef
  have hcr : compute_ranks p_offset xs =
      assignLoop 1 (assignLoop (-1) (List.replicate xs.length 0) B 0) A 0 := rfl
  have hBperm : B.Perm Fb := List.perm_insertionSort _ _
  have hAperm : A.Perm Fa := List.perm_insertionSort _ _
  have hFbnd : Fb.Nodup := List.Nodup.filter _ (List.nodup_range _)
  have hFand : Fa.Nodup := List.Nodup.filter _ (List.nodup_range _)
  have hBnd : B.Nodup := hBperm.nodup_iff.mpr hFbnd
  have hAnd : A.Nodup := hAperm.nodup_iff.mpr hFand
  have hBsort : List.Sorted (descRel xs) B := List.sorted_insertionSort _ _
  have hAsort : List.Sorted (ascRel xs) A := List.sorted_insertionSort _ _
  have hFbmem : ∀ x, x ∈ Fb ↔ (x < xs.length ∧ offsOf xs x < p_offset) := by
    intro x
    rw [hFbdef]
    simp [List.mem_filter, List.mem_range]
  have hFamem : ∀ x, x ∈ Fa ↔ (x < xs.length ∧ p_offset < offsOf xs x) := by
    intro x
    rw [hFadef]
    simp [List.mem_filter, List.mem_range]
  have hBmem : ∀ x ∈ B, x < xs.length ∧ offsOf xs x < p_offset :=
    fun x hx => (hFbmem x).mp (hBperm.mem_iff.mp hx)
  have hAmem : ∀ x ∈ A, x < xs.length ∧ p_offset < offsOf xs x :=
    fun x hx => (hFamem x).mp (hAperm.mem_iff.mp hx)
  have hinlen : (assignLoop (-1) (List.replicate xs.length 0) B 0).length = xs.length := by
    rw [assignLoop_length, List.length_replicate]
  have hrlen : (compute_ranks p_offset xs).length = xs.length := by
    rw [hcr, assignLoop_length, hinlen]
  have hdisjBA : ∀ x ∈ B, x ∉ A := by
    intro x hxB hxA
    have h1 := (hBmem x hxB).2
    have h2 := (hAmem x hxA).2
    omega
  have hBval : ∀ m, m < B.length →
      (compute_ranks p_offset xs).getD (B.getD m 0) 0 = -(↑m + 1) := by
    intro m hm
    have hmem : B.getD m 0 ∈ B := by
      rw [List.getD_eq_getElem _ _ hm]
      exact List.getElem_mem hm
    rw [hcr, assignLoop_getD_not_mem _ _ _ _ _ (hdisjBA _ hmem),
      assignLoop_getD_get (-1) B (List.replicate xs.length 0) 0 m hBnd
        (by intro x hx; rw [List.length_replicate]; exact (hBmem x hx).1) hm]
    push_cast
    ring
  have hAval : ∀ m, m < A.length →
      (compute_ranks p_offset xs).getD (A.getD m 0) 0 = (↑m + 1) := by
    intro m hm
    rw [hcr, assignLoop_getD_get 1 A (assignLoop (-1) (List.replicate xs.length 0) B 0) 0 m
      hAnd (by intro x hx; rw [hinlen]; exact (hAmem x hx).1) hm]
    push_cast
    ring
  have hBidx : ∀ i, i < xs.length → offsOf xs i < p_offset →
      ∃ m, ∃ hm : m < B.length, B.getD m 0 = i := by
    intro i h1 h2
    have : i ∈ B := hBperm.mem_iff.mpr ((hFbmem i).mpr ⟨h1, h2⟩)
    rcases List.mem_iff_getElem.mp this with ⟨m, hm, he⟩
    exact ⟨m, hm, by rw [List.getD_eq_getElem _ _ hm]; exact he⟩
  have hAidx : ∀ i, i < xs.length → p_offset < offsOf xs i →
      ∃ m, ∃ hm : m < A.length, A.getD m 0 = i := by
    intro i h1 h2
    have : i ∈ A := hAperm.mem_iff.mpr ((hFamem i).mpr ⟨h1, h2⟩)
    rcases List.mem_iff_getElem.mp this with ⟨m, hm, he⟩
    exact ⟨m, hm, by rw [List.getD_eq_getElem _ _ hm]; exact he⟩
  have hneg : ∀ i, i < xs.length → offsOf xs i < p_offset →
      (compute_ranks p_offset xs).getD i 0 < 0 := by
    intro i h1 h2
    rcases hBidx i h1 h2 with ⟨m, hm, he⟩
    rw [← he, hBval m hm]
    omega
  have hposi : ∀ i, i < xs.length → p_offset < offsOf xs i →
      0 < (compute_ranks p_offset xs).getD i 0 := by
    intro i h1 h2
    rcases hAidx i h1 h2 with ⟨m, hm, he⟩
    rw [← he, hAval m hm]
    omega
  have hnz : ∀ i, i < xs.length → (compute_ranks p_offset xs).getD i 0 ≠ 0 := by
    intro i h1
    have hmem : xs.getD i default ∈ xs := by
      rw [List.getD_eq_getElem _ _ h1]
      exact List.getElem_mem h1
    have hoff : offsOf xs i ≠ p_offset := hne _ hmem
    rcases lt_or_gt_of_ne hoff with h | h
    · exact ne_of_lt (hneg i h1 h)
    · exact (ne_of_lt (hposi i h1 h)).symm
  have hmono_b : ∀ i j, i < xs.length → j < xs.length →
      offsOf xs i < p_offset → offsOf xs j < p_offset → offsOf xs j < offsOf xs i →
      (compute_ranks p_offset xs).getD j 0 < (compute_ranks p_offset xs).getD i 0 := by
    intro i j hi hj hip hjp hji
    rcases hBidx i hi hip with ⟨mi, hmi, hei⟩
    rcases hBidx j hj hjp with ⟨mj, hmj, hej⟩
    have hkey : mi < mj := by
      rcases Nat.lt_trichotomy mi mj with h | h | h
      · exact h
      · exfalso
        rw [h, hej] at hei
        exact absurd (hei ▸ hji) (lt_irrefl _)
      · exfalso
        have := hBsort.rel_get_of_lt (a := ⟨mj, hmj⟩) (b := ⟨mi, hmi⟩) h
        rw [descRel] at this
        rw [List.get_eq_getElem, List.get_eq_getElem, ← List.getD_eq_getElem _ 0 hmi,
          ← List.getD_eq_getElem _ 0 hmj, hei, hej] at this
        omega
    rw [← hei, ← hej, hBval mi hmi, hBval mj hmj]
    omega
  have hmono_a : ∀ i j, i < xs.length → j < xs.length →
      p_offset < offsOf xs i → p_offset < offsOf xs j → offsOf xs i < offsOf xs j →
      (compute_ranks p_offset xs).getD i 0 < (compute_ranks p_offset xs).getD j 0 := by
    intro i j hi hj hip hjp hij
    rcases hAidx i hi hip with ⟨mi, hmi, hei⟩
    rcases hAidx j hj hjp with ⟨mj, hmj, hej⟩
    have hkey : mi < mj := by
      rcases Nat.lt_trichotomy mi mj with h | h | h
      · exact h
      · exfalso
        rw [h, hej] at hei
        exact absurd (hei ▸ hij) (lt_irrefl _)
      · exfalso
        have := hAsort.rel_get_of_lt (a := ⟨mj, hmj⟩) (b := ⟨mi, hmi⟩) h
        rw [ascRel] at this
        rw [List.get_eq_getElem, List.get_eq_getElem, ← List.getD_eq_getElem _ 0 hmi,
          ← List.getD_eq_getElem _ 0 hmj, hei, hej] at this
        omega
    rw [← hei, ← hej, hAval mi hmi, hAval mj hmj]
    omega
  have hBmap : B.map (fun i => (compute_ranks p_offset xs).getD i 0) =
      negRanks B.length := by
    rw [negRanks]
    apply List.ext_getElem
    · simp only [List.length_map, List.length_range]
    · intro m h1 h2
      simp only [List.getElem_map, List.getElem_range]
      have hm : m < B.length := by
        rw [List.length_map] at h1
        exact h1
      rw [← List.getD_eq_getElem B 0 hm, hBval m hm]
      norm_cast
  have hAmap : A.map (fun i => (compute_ranks p_offset xs).getD i 0) =
      posRanks A.length := by
    rw [posRanks]
    apply List.ext_getElem
    · simp only [List.length_map, List.length_range]
    · intro m h1 h2
      simp only [List.getElem_map, List.getElem_range]
      have hm : m < A.length := by
        rw [List.length_map] at h1
        exact h1
      rw [← List.getD_eq_getElem A 0 hm, hAval m hm]
      norm_cast
  have hpermB : (Fb.map fun i => (compute_ranks p_offset xs).getD i 0).Perm
      (negRanks Fb.length) := by
    have h1 := (hBperm.map fun i => (compute_ranks p_offset xs).getD i 0).symm
    rw [hBmap, hBperm.length_eq] at h1
    exact h1
  have hpermA : (Fa.map fun i => (compute_ranks p_offset xs).getD i 0).Perm
      (posRanks Fa.length) := by
    have h1 := (hAperm.map fun i => (compute_ranks p_offset xs).getD i 0).symm
    rw [hAmap, hAperm.length_eq] at h1
    exact h1
  exact ⟨hrlen, hneg, hposi, hnz, hmono_b, hmono_a, hpermB, hpermA⟩

/-- Witness for C3 on a 5-candidate input around PP offset 5: ranks are
assigned by signed distance, e.g. `[1, -2, 2, -1, -3]` for offsets
`[7, 2, 9, 4, 1]`. -/
theorem compute_ranks_signed_distance_witness :
    compute_ranks 5 [⟨7, false⟩, ⟨2, true⟩, ⟨9, false⟩, ⟨4, false⟩, ⟨1, false⟩] =
      [1, -2, 2, -1, -3] ∧
    (compute_ranks 5 [⟨7, false⟩, ⟨2, true⟩, ⟨9, false⟩, ⟨4, false⟩, ⟨1, false⟩]).getD 1 0 <
      (compute_ranks 5 [⟨7, false⟩, ⟨2, true⟩, ⟨9, false⟩, ⟨4, false⟩, ⟨1, false⟩]).getD 3 0 := by
  refine ⟨by decide, ?_⟩
  exact (compute_ranks_signed_distance 5
      [⟨7, false⟩, ⟨2, true⟩, ⟨9, false⟩, ⟨4, false⟩, ⟨1, false⟩]
      (by intro c hc; fin_cases hc <;> decide)).2.2.2.2.1 3 1
    (by decide) (by decide) (by decide) (by decide) (by decide)

/-- Counterexample for C3 as stated: a candidate whose offset equals the PP
offset keeps the initial rank 0, so "no candidate ever receives rank 0"
fails for arbitrary candidate sequences. -/
theorem compute_ranks_rank_zero_on_equal_offset :
    compute_ranks 1 [⟨1, true⟩] = [0] := by decide

/-- C9 (amended): the graph built from a sentence of length `n` has exactly
`n` nodes (node `i` holding token `i`), exactly `n−1` precedence edges —
one from `i` to `i+1` for every `i < n−1` and no others — at most `n`
relation edges, a relation edge into node `j` exactly when token `j`'s
(projective, if selected) head is present and non-zero, and at most one
*incoming* relation edge per node.  ("Outgoing", as claimed, fails: a head
with several dependents has several outgoing relation edges.) -/
theorem graph_builder_invariants (s : List Token) (proj : Bool) :
    (sentence_to_graph s proj).nodes = s ∧
    ((sentence_to_graph s proj).edges.filter fun e =>
        e.weight == DepEdge.precedence).length = s.length - 1 ∧
    (∀ i, i + 1 < s.length →
      (⟨i, i + 1, DepEdge.precedence⟩ : Edge) ∈ (sentence_to_graph s proj).edges) ∧
    (∀ e ∈ (sentence_to_graph s proj).edges, e.weight = DepEdge.precedence →
      ∃ i, i + 1 < s.length ∧ e = ⟨i, i + 1, DepEdge.precedence⟩) ∧
    ((sentence_to_graph s proj).edges.filter fun e => e.weight.isRelation).length ≤
      s.length ∧
    (∀ j t, s[j]? = some t →
      ((sentence_to_graph s proj).edges.filter fun e =>
          e.tgt == j && e.weight.isRelation).length =
        (match (if proj then t.pHead else t.head) with
         | some h => if h ≠ 0 then 1 else 0
         | none => 0)) ∧
    (∀ j, ((sentence_to_graph s proj).edges.filter fun e =>
        e.tgt == j && e.weight.isRelation).length ≤ 1) := by
  have hedges : (sentence_to_graph s proj).edges = buildEdges proj 0 s := rfl
  have hinto : ∀ j,
      ((sentence_to_graph s proj).edges.filter fun e =>
          e.tgt == j && e.weight.isRelation).length =
        (match s[j]? with
         | some t =>
           (match (if proj then t.pHead else t.head) with
            | some h => if h ≠ 0 then 1 else 0
            | none => 0)
         | none => 0) := by
    intro j
    have h := buildEdges_rel_into proj s 0 j
    simpa [hedges] using h
  refine ⟨rfl, ?_, ?_, ?_, ?_, ?_, ?_⟩
  · rw [hedges]
    exact buildEdges_prec_count_zero proj s
  · intro i hi
    rw [hedges, mem_buildEdges]
    refine ⟨i + 1, s[i + 1], by simp, ?_⟩
    rw [mem_tokenEdges]
    exact Or.inl ⟨by omega, by simp⟩
  · intro e he hw
    rw [hedges, mem_buildEdges] at he
    rcases he with ⟨m, t, hm, het⟩
    rw [mem_tokenEdges] at het
    rcases het with ⟨hm0, heq⟩ | ⟨h, _, _, heq⟩
    · refine ⟨m - 1, ?_, ?_⟩
      · have : m < s.length := by
          by_contra hc
          rw [List.getElem?_eq_none (by omega)] at hm
          exact absurd hm (by simp)
        omega
      · have h1 : 0 + m - 1 = m - 1 := by omega
        have h2 : 0 + m = m - 1 + 1 := by omega
        rw [heq, h1, h2]
    · rw [heq] at hw
      exact absurd hw (by simp)
  · rw [hedges]
    exact buildEdges_rel_count_le proj s 0
  · intro j t hjt
    rw [hinto j, hjt]
  · intro j
    rw [hinto j]
    split
    · split
      · split <;> omega
      · omega
    · omega

/-- Witness for C9 on `sentMulti`: the precedence edge `0 → 1` is present
and node 1 has exactly one incoming relation edge. -/
theorem graph_builder_invariants_witness :
    (⟨0, 1, DepEdge.precedence⟩ : Edge) ∈ (sentence_to_graph sentMulti false).edges ∧
    ((sentence_to_graph sentMulti false).edges.filter fun e =>
        e.tgt == 1 && e.weight.isRelation).length = 1 := by
  refine ⟨(graph_builder_invariants sentMulti false).2.2.1 0 (by decide), ?_⟩
  have h := (graph_builder_invariants sentMulti false).2.2.2.2.2.1 1
    (mkTok (some "NN") none 1 none) (by decide)
  simpa using h

/-- Counterexample for C9 as stated: in `sentMulti` the verb (token 1,
1-based) heads both other tokens, so node 0 of the built graph has two
outgoing relation edges — "at most one outgoing Relation edge per node"
fails. -/
theorem node_with_two_outgoing_relation_edges :
    sentMulti.length = 3 ∧
    ((sentence_to_graph sentMulti false).edges.filter fun e =>
        e.src == 0 && e.weight.isRelation).length = 2 := by decide

/-- Witness for C2 on `sentMF`: the PP has the single candidate `⟨4, true⟩`
(the gold head); with the include-all flag the instance is emitted, without
it the PP is suppressed. -/
theorem pp_instance_filter_witness :
    processEdge graphMF true ⟨4, 2, .relation (some "PP")⟩ =
      .ok (some ⟨2, 3, [⟨4, true⟩]⟩) ∧
    processEdge graphMF false ⟨4, 2, .relation (some "PP")⟩ = .ok none :=
  (pp_instance_filter graphMF false ⟨4, 2, .relation (some "PP")⟩ "VVPP" "MF" 3
      [⟨4, true⟩] rfl (by decide) (by decide) (by decide) (by decide) (by decide)
      (by decide)).2.2 4 rfl

end ExtractPps
